import Mathlib

/-!
# go-patterns: the Strategy example (`design-patterns/behavioral/strategy.go`)

A shallow embedding of the cache with a pluggable eviction strategy.

* A Go `map[string]string` is a finite map from `String` to `String`
  (`Finmap`): unordered, keys unique, absent keys read as the empty string.
* A Go `int` is an `Int` kept in the 64-bit two's complement range, `++` and
  `--` wrap around (`wrapInt`).
* `fmt.Println` is modelled by returning the lines printed, in order.
* The interface `EvictionAlgo` is the sum of its three implementations in the
  file (`Fifo`, `Lru`, `Lfu`). A cache holds exactly one active strategy and an
  allocated map, as every cache made by `initCache` from one of the three
  strategies does; the nil interface value and the nil map are not states of
  the model.
-/

namespace Strategy

/-- Go map `map[string]string`. -/
abbrev Storage := Finmap (fun _ : String => String)

/-- Smallest value of a 64-bit Go `int`. -/
def minInt : Int := -9223372036854775808

/-- Largest value of a 64-bit Go `int`. -/
def maxInt : Int := 9223372036854775807

/-- Two's complement wrap-around of a 64-bit Go `int`. -/
def wrapInt (x : Int) : Int :=
  (x + 9223372036854775808) % 18446744073709551616 - 9223372036854775808

/-- Strategy interface `EvictionAlgo`, as the sum of the concrete strategies
`Fifo`, `Lru` and `Lfu`. -/
inductive EvictionAlgo where
  | Fifo
  | Lru
  | Lfu
  deriving DecidableEq, Repr

/-- Context `Cache`: the struct of the source, field by field. The field
`capacity` is the size counter, `maxCapacity` the bound. -/
structure Cache where
  storage : Storage
  evictionAlgo : EvictionAlgo
  capacity : Int
  maxCapacity : Int
  deriving DecidableEq

/-- `func (l *Fifo) evict(c *Cache)`: prints one line, the cache is untouched. -/
def Fifo.evict (c : Cache) : Cache × List String :=
  (c, ["Evicting by fifo strategy"])

/-- `func (l *Lru) evict(c *Cache)`: prints one line, the cache is untouched. -/
def Lru.evict (c : Cache) : Cache × List String :=
  (c, ["Evicting by lru strategy"])

/-- `func (l *Lfu) evict(c *Cache)`: prints one line, the cache is untouched. -/
def Lfu.evict (c : Cache) : Cache × List String :=
  (c, ["Evicting by lfu strategy"])

/-- Dynamic dispatch of `evict` on the interface value. -/
def EvictionAlgo.evict : EvictionAlgo → Cache → Cache × List String
  | .Fifo, c => Fifo.evict c
  | .Lru, c => Lru.evict c
  | .Lfu, c => Lfu.evict c

/-- `func initCache(e EvictionAlgo) *Cache`. -/
def initCache (e : EvictionAlgo) : Cache :=
  { storage := ∅, evictionAlgo := e, capacity := 0, maxCapacity := 2 }

/-- `func (c *Cache) setEvictionAlgo(e EvictionAlgo)`. -/
def Cache.setEvictionAlgo (c : Cache) (e : EvictionAlgo) : Cache :=
  { c with evictionAlgo := e }

/-- `func (c *Cache) evict()`: the strategy runs first, then `c.capacity--`.
Returns the new cache and the lines printed. -/
def Cache.evict (c : Cache) : Cache × List String :=
  let r := c.evictionAlgo.evict c
  ({ r.1 with capacity := wrapInt (r.1.capacity - 1) }, r.2)

/-- `func (c *Cache) add(key, value string)`: evicts when the counter equals
`maxCapacity`, then `c.capacity++` and `c.storage[key] = value`.
Returns the new cache and the lines printed. -/
def Cache.add (c : Cache) (key value : String) : Cache × List String :=
  let r := if c.capacity = c.maxCapacity then c.evict else (c, [])
  ({ r.1 with capacity := wrapInt (r.1.capacity + 1),
              storage := r.1.storage.insert key value }, r.2)

/-- `func (c *Cache) get(key string) string`: an absent key reads as `""`,
the cache is not modified. -/
def Cache.get (c : Cache) (key : String) : String :=
  (c.storage.lookup key).getD ""

/-- A run of `add` calls, left to right, with everything printed on the way. -/
def addAll : Cache → List (String × String) → Cache × List String
  | c, [] => (c, [])
  | c, (k, v) :: rest =>
    let r := c.add k v
    let r2 := addAll r.1 rest
    (r2.1, r.2 ++ r2.2)

/-- Number of key-value entries held in the map (`len(c.storage)`). -/
def Cache.entries (c : Cache) : Nat := c.storage.keys.card

/-- The fields of type `int` hold representable 64-bit values. -/
def Cache.Representable (c : Cache) : Prop :=
  minInt ≤ c.capacity ∧ c.capacity ≤ maxInt ∧
  minInt ≤ c.maxCapacity ∧ c.maxCapacity ≤ maxInt

instance (c : Cache) : Decidable c.Representable :=
  inferInstanceAs (Decidable (_ ∧ _ ∧ _ ∧ _))

/-- The size invariant of the specification: `0 ≤ size ≤ capacity`. -/
def Cache.SizeInv (c : Cache) : Prop :=
  0 ≤ c.capacity ∧ c.capacity ≤ c.maxCapacity

instance (c : Cache) : Decidable c.SizeInv :=
  inferInstanceAs (Decidable (_ ∧ _))

/-- The line a strategy prints when its `evict` runs. -/
def EvictionAlgo.line : EvictionAlgo → String
  | .Fifo => "Evicting by fifo strategy"
  | .Lru => "Evicting by lru strategy"
  | .Lfu => "Evicting by lfu strategy"

end Strategy

/-!
# The other examples

The same conventions as above: every print call contributes one entry to the
list of printed texts (the text without its final newline), an interface is the
sum of its implementations in the file, and a nil interface value or nil
receiver is not a state of the model. A Go slice is the list of its elements.
-/

namespace IteratorPattern

/-- Client struct `User`. -/
structure User where
  name : String
  age : Int
  deriving DecidableEq, Repr

/-- Go pointer `*User`: `none` is the nil pointer. -/
abbrev UserPtr := Option User

/-- Concrete collection `UserCollection`. -/
structure UserCollection where
  users : List UserPtr
  deriving DecidableEq

/-- Concrete iterator `UserIterator`. -/
structure UserIterator where
  index : Int
  users : List UserPtr
  deriving DecidableEq

/-- `func (u *UserCollection) createIterator() Iterator`: `index` starts at its
zero value. -/
def UserCollection.createIterator (u : UserCollection) : UserIterator :=
  { index := 0, users := u.users }

/-- `func (u *UserIterator) hasNext() bool`. -/
def UserIterator.hasNext (u : UserIterator) : Bool :=
  decide (u.index < (u.users.length : Int))

/-- `func (u *UserIterator) getNext() *User`: the value returned and the
iterator afterwards; `none` is the run-time panic of `u.users[u.index]` on a
negative index. The increment cannot overflow, since `index < len(users)`. -/
def UserIterator.getNext (u : UserIterator) : Option (UserPtr × UserIterator) :=
  if u.hasNext then
    if u.index < 0 then none
    else
      match u.users[u.index.toNat]? with
      | some user => some (user, { u with index := u.index + 1 })
      | none => none
  else some (none, u)

set_option linter.unusedVariables false in
/-- The client loop `for iterator.hasNext() { user := iterator.getNext(); ... }`:
the values returned by the calls of `getNext`, in order, and the iterator at
the end; `none` if a call panics. One value is recorded per call. -/
def UserIterator.traverse (it : UserIterator) : Option (List UserPtr × UserIterator) :=
  if h : it.hasNext = true then
    match hg : it.getNext with
    | none => none
    | some (user, it2) => (UserIterator.traverse it2).map fun r => (user :: r.1, r.2)
  else some ([], it)
termination_by ((it.users.length : Int) - it.index).toNat
decreasing_by
  unfold UserIterator.getNext at hg
  rw [if_pos h] at hg
  simp only [UserIterator.hasNext, decide_eq_true_eq] at h
  split at hg
  · exact absurd hg (by simp)
  · split at hg
    · simp only [Option.some.injEq, Prod.mk.injEq] at hg
      obtain ⟨_, rfl⟩ := hg
      simp only
      omega
    · exact absurd hg (by simp)

end IteratorPattern

namespace AbstractFactory

/-- Interface `IFactory`, as the sum of the concrete factories `*WhatsApp` and
`*Telegram` (both empty structs). -/
inductive IFactory where
  | WhatsApp
  | Telegram
  deriving DecidableEq, Repr

/-- `func GetMessageFactory(channel string) (IFactory, error)`: the pair
returned, `none` for a nil factory and for a nil error; an error is given by
its message. -/
def GetMessageFactory (channel : String) : Option IFactory × Option String :=
  if channel = "whatsapp" then (some IFactory.WhatsApp, none)
  else if channel = "telegram" then (some IFactory.Telegram, none)
  else (none, some "wrong channel type passed")

end AbstractFactory

namespace BuilderPattern

/-- Product `Flow`; the `uint64` contacts are natural numbers, no arithmetic is
done on them. -/
structure Flow where
  channelType : String
  features : List String
  bannedContacts : List Nat
  deriving DecidableEq, Repr

/-- Messaging concrete builder. -/
structure MessagingFlowBuilder where
  channelType : String
  features : List String
  bannedContacts : List Nat
  deriving DecidableEq, Repr

/-- `func newMessagingFlowBuilder() *MessagingFlowBuilder`: all fields zero. -/
def newMessagingFlowBuilder : MessagingFlowBuilder :=
  { channelType := "", features := [], bannedContacts := [] }

/-- `func (b *MessagingFlowBuilder) setChannelType(t string)`. -/
def MessagingFlowBuilder.setChannelType (b : MessagingFlowBuilder) (t : String) :
    MessagingFlowBuilder :=
  { b with channelType := t }

/-- `func (b *MessagingFlowBuilder) setFeatures(feats []string)`. -/
def MessagingFlowBuilder.setFeatures (b : MessagingFlowBuilder) (feats : List String) :
    MessagingFlowBuilder :=
  { b with features := feats }

/-- `func (b *MessagingFlowBuilder) setBannedContacts(bans []uint64)`. -/
def MessagingFlowBuilder.setBannedContacts (b : MessagingFlowBuilder) (bans : List Nat) :
    MessagingFlowBuilder :=
  { b with bannedContacts := bans }

/-- `func (b *MessagingFlowBuilder) getFlow() Flow`. -/
def MessagingFlowBuilder.getFlow (b : MessagingFlowBuilder) : Flow :=
  { channelType := b.channelType, features := b.features, bannedContacts := b.bannedContacts }

/-- Voice concrete builder. -/
structure VoiceFlowBuilder where
  channelType : String
  features : List String
  bannedContacts : List Nat
  deriving DecidableEq, Repr

/-- `func newVoiceFlowBuilder() *VoiceFlowBuilder`: all fields zero. -/
def newVoiceFlowBuilder : VoiceFlowBuilder :=
  { channelType := "", features := [], bannedContacts := [] }

/-- `func (b *VoiceFlowBuilder) setChannelType(t string)`. -/
def VoiceFlowBuilder.setChannelType (b : VoiceFlowBuilder) (t : String) : VoiceFlowBuilder :=
  { b with channelType := t }

/-- `func (b *VoiceFlowBuilder) setFeatures(feats []string)`. -/
def VoiceFlowBuilder.setFeatures (b : VoiceFlowBuilder) (feats : List String) :
    VoiceFlowBuilder :=
  { b with features := feats }

/-- `func (b *VoiceFlowBuilder) setBannedContacts(bans []uint64)`. -/
def VoiceFlowBuilder.setBannedContacts (b : VoiceFlowBuilder) (bans : List Nat) :
    VoiceFlowBuilder :=
  { b with bannedContacts := bans }

/-- `func (b *VoiceFlowBuilder) getFlow() Flow`. -/
def VoiceFlowBuilder.getFlow (b : VoiceFlowBuilder) : Flow :=
  { channelType := b.channelType, features := b.features, bannedContacts := b.bannedContacts }

/-- Interface `IBuilder`, as the sum of the two concrete builders with their
current state. -/
inductive IBuilder where
  | messaging (b : MessagingFlowBuilder)
  | voice (b : VoiceFlowBuilder)
  deriving DecidableEq, Repr

/-- Dynamic dispatch of `setChannelType`. -/
def IBuilder.setChannelType : IBuilder → String → IBuilder
  | .messaging b, t => .messaging (b.setChannelType t)
  | .voice b, t => .voice (b.setChannelType t)

/-- Dynamic dispatch of `setFeatures`. -/
def IBuilder.setFeatures : IBuilder → List String → IBuilder
  | .messaging b, f => .messaging (b.setFeatures f)
  | .voice b, f => .voice (b.setFeatures f)

/-- Dynamic dispatch of `setBannedContacts`. -/
def IBuilder.setBannedContacts : IBuilder → List Nat → IBuilder
  | .messaging b, bans => .messaging (b.setBannedContacts bans)
  | .voice b, bans => .voice (b.setBannedContacts bans)

/-- Dynamic dispatch of `getFlow`. -/
def IBuilder.getFlow : IBuilder → Flow
  | .messaging b => b.getFlow
  | .voice b => b.getFlow

/-- `func getBuilder(builderType string) (IBuilder, error)`. -/
def getBuilder (builderType : String) : Option IBuilder × Option String :=
  if builderType = "messaging" then (some (.messaging newMessagingFlowBuilder), none)
  else if builderType = "voice" then (some (.voice newVoiceFlowBuilder), none)
  else (none, some "invalid builder type passed")

/-- The `Director` struct. -/
structure Director where
  builder : IBuilder
  deriving DecidableEq, Repr

/-- `func newDirector(b IBuilder) *Director`. -/
def newDirector (b : IBuilder) : Director := { builder := b }

/-- `func (d *Director) setBuilder(b IBuilder)`. -/
def Director.setBuilder (_d : Director) (b : IBuilder) : Director := { builder := b }

/-- `func (d *Director) buildFlow(t string, f []string, b []uint64) Flow`: the
three setters run on the director's builder, then `getFlow`; returns the flow
and the director with the builder as the setters left it. -/
def Director.buildFlow (d : Director) (t : String) (f : List String) (b : List Nat) :
    Flow × Director :=
  let b1 := d.builder.setChannelType t
  let b2 := b1.setFeatures f
  let b3 := b2.setBannedContacts b
  (b3.getFlow, { builder := b3 })

end BuilderPattern

namespace ObserverPattern

/-- Concrete observer `Manager`. -/
structure Manager where
  id : String
  deriving DecidableEq, Repr

/-- Interface `Observer`: `*Manager` is its one implementation in the file. -/
abbrev Observer := Manager

/-- `func (m *Manager) update(taskName string)`: the text printed. -/
def Manager.update (m : Manager) (taskName : String) : List String :=
  ["Sending email to customer " ++ m.id ++ " for item " ++ taskName]

/-- `func (m *Manager) getID() string`. -/
def Manager.getID (m : Manager) : String := m.id

/-- Concrete subject `Task`. -/
structure Task where
  observerList : List Observer
  name : String
  status : Bool
  deriving DecidableEq, Repr

/-- `func newTask(name string) *Task`. -/
def newTask (name : String) : Task :=
  { observerList := [], name := name, status := false }

/-- The loop of `notifyAll` over the observers still to be visited. -/
def notifyLoop : List Observer → String → List String
  | [], _ => []
  | observer :: rest, name => observer.update name ++ notifyLoop rest name

/-- `func (t *Task) notifyAll()`: what the `update` calls print, in order. -/
def Task.notifyAll (t : Task) : List String :=
  notifyLoop t.observerList t.name

/-- `func (t *Task) updateStatus()`: prints, sets `status`, then `notifyAll`. -/
def Task.updateStatus (t : Task) : Task × List String :=
  let t1 := { t with status := true }
  (t1, (t.name ++ " status has changed") :: t1.notifyAll)

/-- `func (t *Task) register(o Observer)`. -/
def Task.register (t : Task) (o : Observer) : Task :=
  { t with observerList := t.observerList ++ [o] }

/-- The body of the `if` in `removeFromSlice`: the last element and element `i`
are swapped (`observerList[n-1], observerList[i] = observerList[i],
observerList[n-1]`) and `observerList[:n-1]` is returned. Both indices are in
range where the loop calls it. -/
def swapAndCut (observerList : List Observer) (i : Nat) : List Observer :=
  match observerList[i]?, observerList[observerList.length - 1]? with
  | some atI, some atLast =>
    ((observerList.set (observerList.length - 1) atI).set i atLast).take
      (observerList.length - 1)
  | _, _ => observerList

/-- The `for i, observer := range observerList` loop of `removeFromSlice`, at
index `i` with the elements from `i` on still to visit. -/
def removeFromSliceLoop (observerList : List Observer) (observerToRemove : Observer) :
    Nat → List Observer → List Observer
  | _, [] => observerList
  | i, observer :: rest =>
    if observerToRemove.getID = observer.getID then swapAndCut observerList i
    else removeFromSliceLoop observerList observerToRemove (i + 1) rest

/-- `func removeFromSlice(observerList []Observer, observerToRemove Observer) []Observer`. -/
def removeFromSlice (observerList : List Observer) (observerToRemove : Observer) :
    List Observer :=
  removeFromSliceLoop observerList observerToRemove 0 observerList

/-- `func (t *Task) deregister(o Observer)`. -/
def Task.deregister (t : Task) (o : Observer) : Task :=
  { t with observerList := removeFromSlice t.observerList o }

end ObserverPattern

namespace Composite

/-- Leaf `File`. -/
structure File where
  name : String
  deriving DecidableEq, Repr

/-- `func (f *File) search(keyword string)`: the text printed. -/
def File.search (f : File) (keyword : String) : List String :=
  ["Searching for keyword " ++ keyword ++ " in file " ++ f.name]

mutual
/-- Interface `Component`, as the sum of `*File` and `*Folder`. -/
inductive Component where
  | file (f : File)
  | folder (f : Folder)
/-- Composite `Folder`, a finite tree: `components` and `name`. -/
inductive Folder where
  | mk (components : List Component) (name : String)
end

/-- Field `components` of a folder. -/
def Folder.components : Folder → List Component
  | .mk cs _ => cs

/-- Field `name` of a folder. -/
def Folder.name : Folder → String
  | .mk _ n => n

mutual
/-- Dynamic dispatch of `search` on a component. -/
def Component.search : Component → String → List String
  | .file f, keyword => f.search keyword
  | .folder f, keyword => Folder.search f keyword
/-- `func (f *Folder) search(keyword string)`: the folder's own text, then the
loop over the components. -/
def Folder.search : Folder → String → List String
  | .mk cs name, keyword =>
    ("Searching recursively for keyword " ++ keyword ++ " in folder " ++ name) ::
      searchLoop cs keyword
/-- The `for _, composite := range f.components` loop of `Folder.search`. -/
def searchLoop : List Component → String → List String
  | [], _ => []
  | composite :: rest, keyword => Component.search composite keyword ++ searchLoop rest keyword
end

/-- `func (f *Folder) add(c Component)`. -/
def Folder.add : Folder → Component → Folder
  | .mk cs name, c => .mk (cs ++ [c]) name

mutual
/-- Number of nodes of the tree under a component. -/
def Component.nodes : Component → Nat
  | .file _ => 1
  | .folder f => Folder.nodes f
/-- Number of nodes of the tree under a folder, the folder included. -/
def Folder.nodes : Folder → Nat
  | .mk cs _ => 1 + nodesOf cs
/-- Number of nodes of a list of trees. -/
def nodesOf : List Component → Nat
  | [] => 0
  | c :: rest => Component.nodes c + nodesOf rest
end

/-- A node of the tree, by kind and name. -/
inductive Node where
  | file (name : String)
  | folder (name : String)
  deriving DecidableEq, Repr

/-- The text printed when `search(keyword)` visits a node. -/
def Node.line (keyword : String) : Node → String
  | .file name => "Searching for keyword " ++ keyword ++ " in file " ++ name
  | .folder name => "Searching recursively for keyword " ++ keyword ++ " in folder " ++ name

mutual
/-- Pre-order listing of the nodes under a component. -/
def Component.preorder : Component → List Node
  | .file f => [Node.file f.name]
  | .folder f => Folder.preorder f
/-- Pre-order listing of the nodes under a folder: the folder, then its
components from first to last. -/
def Folder.preorder : Folder → List Node
  | .mk cs name => Node.folder name :: preorderOf cs
/-- Pre-order listing of a list of trees. -/
def preorderOf : List Component → List Node
  | [] => []
  | c :: rest => Component.preorder c ++ preorderOf rest
end

end Composite

namespace Strategy

/-! ## Auxiliary facts -/

theorem wrapInt_of_range {x : Int} (h1 : minInt ≤ x) (h2 : x ≤ maxInt) : wrapInt x = x := by
  unfold wrapInt
  unfold minInt at h1
  unfold maxInt at h2
  omega

theorem wrapInt_pred_succ {x : Int} (h1 : minInt ≤ x) (h2 : x ≤ maxInt) :
    wrapInt (wrapInt (x - 1) + 1) = x := by
  unfold wrapInt
  unfold minInt at h1
  unfold maxInt at h2
  omega

theorem strategy_evict_fst (e : EvictionAlgo) (c : Cache) : (e.evict c).1 = c := by
  cases e <;> rfl

theorem strategy_evict_snd (e : EvictionAlgo) (c : Cache) : (e.evict c).2 = [e.line] := by
  cases e <;> rfl

theorem line_injective : Function.Injective EvictionAlgo.line := by
  intro a b h
  cases a <;> cases b <;> first | rfl | (revert h; decide)

theorem evict_eq (c : Cache) :
    c.evict = ({ c with capacity := wrapInt (c.capacity - 1) }, [c.evictionAlgo.line]) := by
  unfold Cache.evict
  simp only [strategy_evict_fst, strategy_evict_snd]

theorem add_eq_of_full (c : Cache) (k v : String) (h : c.capacity = c.maxCapacity) :
    c.add k v = ({ c with capacity := wrapInt (wrapInt (c.capacity - 1) + 1),
                          storage := c.storage.insert k v }, [c.evictionAlgo.line]) := by
  unfold Cache.add
  simp only [h, if_true, evict_eq]

theorem add_eq_of_not_full (c : Cache) (k v : String) (h : c.capacity ≠ c.maxCapacity) :
    c.add k v = ({ c with capacity := wrapInt (c.capacity + 1),
                          storage := c.storage.insert k v }, []) := by
  unfold Cache.add
  simp only [h, if_false]

theorem add_storage (c : Cache) (k v : String) :
    (c.add k v).1.storage = c.storage.insert k v := by
  by_cases h : c.capacity = c.maxCapacity
  · rw [add_eq_of_full c k v h]
  · rw [add_eq_of_not_full c k v h]

theorem add_maxCapacity (c : Cache) (k v : String) :
    (c.add k v).1.maxCapacity = c.maxCapacity := by
  by_cases h : c.capacity = c.maxCapacity
  · rw [add_eq_of_full c k v h]
  · rw [add_eq_of_not_full c k v h]

theorem add_evictionAlgo (c : Cache) (k v : String) :
    (c.add k v).1.evictionAlgo = c.evictionAlgo := by
  by_cases h : c.capacity = c.maxCapacity
  · rw [add_eq_of_full c k v h]
  · rw [add_eq_of_not_full c k v h]

theorem add_capacity (c : Cache) (k v : String) :
    (c.add k v).1.capacity =
      if c.capacity = c.maxCapacity then wrapInt (wrapInt (c.capacity - 1) + 1)
      else wrapInt (c.capacity + 1) := by
  by_cases h : c.capacity = c.maxCapacity
  · rw [add_eq_of_full c k v h, if_pos h]
  · rw [add_eq_of_not_full c k v h, if_neg h]

theorem add_printed (c : Cache) (k v : String) :
    (c.add k v).2 = if c.capacity = c.maxCapacity then [c.evictionAlgo.line] else [] := by
  by_cases h : c.capacity = c.maxCapacity
  · rw [add_eq_of_full c k v h, if_pos h]
  · rw [add_eq_of_not_full c k v h, if_neg h]

theorem keys_insert (s : Storage) (k v : String) :
    (s.insert k v).keys = insert k s.keys := by
  ext x
  simp [Finmap.mem_keys, Finmap.mem_insert]

theorem addAll_keys (c : Cache) (kvs : List (String × String)) :
    (addAll c kvs).1.storage.keys = c.storage.keys ∪ (kvs.map Prod.fst).toFinset := by
  induction kvs generalizing c with
  | nil => simp [addAll]
  | cons kv rest ih =>
    obtain ⟨k, v⟩ := kv
    simp only [addAll, ih, add_storage, keys_insert, List.map_cons, List.toFinset_cons]
    ext x
    simp only [Finset.mem_union, Finset.mem_insert]
    tauto

theorem addAll_maxCapacity (c : Cache) (kvs : List (String × String)) :
    (addAll c kvs).1.maxCapacity = c.maxCapacity := by
  induction kvs generalizing c with
  | nil => rfl
  | cons kv rest ih =>
    obtain ⟨k, v⟩ := kv
    simp only [addAll, ih, add_maxCapacity]

theorem add_sizeInv (c : Cache) (k v : String) (hr : c.Representable) (hi : c.SizeInv) :
    (c.add k v).1.SizeInv := by
  obtain ⟨h1, h2, h3, h4⟩ := hr
  obtain ⟨h5, h6⟩ := hi
  by_cases h : c.capacity = c.maxCapacity
  · rw [add_eq_of_full c k v h]
    simp only [Cache.SizeInv, wrapInt_pred_succ h1 h2]
    exact ⟨h5, h6⟩
  · rw [add_eq_of_not_full c k v h]
    have hlt : c.capacity + 1 ≤ c.maxCapacity := by omega
    have hw : wrapInt (c.capacity + 1) = c.capacity + 1 :=
      wrapInt_of_range (by unfold minInt at *; omega) (by omega)
    simp only [Cache.SizeInv, hw]
    omega

theorem add_representable (c : Cache) (k v : String) (hr : c.Representable) (hi : c.SizeInv) :
    (c.add k v).1.Representable := by
  have hs := add_sizeInv c k v hr hi
  have hm := add_maxCapacity c k v
  obtain ⟨h1, h2, h3, h4⟩ := hr
  obtain ⟨h5, h6⟩ := hs
  refine ⟨?_, ?_, ?_, ?_⟩
  · unfold minInt at *; omega
  · omega
  · omega
  · omega

theorem addAll_sizeInv (c : Cache) (kvs : List (String × String))
    (hr : c.Representable) (hi : c.SizeInv) : (addAll c kvs).1.SizeInv := by
  induction kvs generalizing c with
  | nil => exact hi
  | cons kv rest ih =>
    obtain ⟨k, v⟩ := kv
    simp only [addAll]
    exact ih _ (add_representable c k v hr hi) (add_sizeInv c k v hr hi)

theorem addAll_evictionAlgo (c : Cache) (kvs : List (String × String)) :
    (addAll c kvs).1.evictionAlgo = c.evictionAlgo := by
  induction kvs generalizing c with
  | nil => rfl
  | cons kv rest ih =>
    obtain ⟨k, v⟩ := kv
    simp only [addAll, ih, add_evictionAlgo]

theorem addAll_printed_lines (c : Cache) (kvs : List (String × String)) :
    ∀ l ∈ (addAll c kvs).2, l = c.evictionAlgo.line := by
  induction kvs generalizing c with
  | nil => simp [addAll]
  | cons kv rest ih =>
    obtain ⟨k, v⟩ := kv
    intro l hl
    simp only [addAll, List.mem_append] at hl
    rcases hl with hl | hl
    · rw [add_printed] at hl
      split at hl
      · simpa using hl
      · simp at hl
    · rw [← add_evictionAlgo c k v]
      exact ih _ l hl

theorem addAll_below_capacity (c : Cache) (kvs : List (String × String))
    (h1 : minInt ≤ c.capacity) (h2 : c.maxCapacity ≤ maxInt)
    (h3 : c.capacity + kvs.length ≤ c.maxCapacity) :
    (addAll c kvs).1.capacity = c.capacity + kvs.length ∧ (addAll c kvs).2 = [] := by
  induction kvs generalizing c with
  | nil => simp [addAll]
  | cons kv rest ih =>
    obtain ⟨k, v⟩ := kv
    simp only [List.length_cons, Nat.cast_add, Nat.cast_one] at h3
    have hne : c.capacity ≠ c.maxCapacity := by omega
    have hw : wrapInt (c.capacity + 1) = c.capacity + 1 :=
      wrapInt_of_range (by unfold minInt at *; omega) (by omega)
    have hc : (c.add k v).1.capacity = c.capacity + 1 := by
      rw [add_capacity, if_neg hne, hw]
    have hp : (c.add k v).2 = [] := by
      rw [add_printed, if_neg hne]
    have hm := add_maxCapacity c k v
    obtain ⟨i1, i2⟩ := ih (c.add k v).1 (by unfold minInt at *; omega) (by omega) (by omega)
    simp only [addAll, List.length_cons, Nat.cast_add, Nat.cast_one]
    refine ⟨by omega, ?_⟩
    rw [hp, i2]
    rfl

/-! ## C1: entries held in storage against `maxCapacity` -/

/-- C1, as stated, fails: after `add(a,1)`, `add(b,2)`, `add(c,3)` on a fresh
cache the map holds three entries while `maxCapacity` is 2. -/
theorem storage_entries_exceed_maxCapacity :
    ¬ (((addAll (initCache .Fifo) [("a", "1"), ("b", "2"), ("c", "3")]).1.entries : Int)
        ≤ (addAll (initCache .Fifo) [("a", "1"), ("b", "2"), ("c", "3")]).1.maxCapacity) := by
  decide

/-- C1, amended: for every run of `add` calls on a cache made by `initCache`,
the size counter stays within `maxCapacity`, which is 2, while the number of
entries held in the map is the number of distinct keys added so far: no entry
is ever removed. -/
theorem addAll_entries_and_counter (e : EvictionAlgo) (kvs : List (String × String)) :
    (addAll (initCache e) kvs).1.entries = (kvs.map Prod.fst).toFinset.card ∧
    (addAll (initCache e) kvs).1.capacity ≤ (addAll (initCache e) kvs).1.maxCapacity ∧
    (addAll (initCache e) kvs).1.maxCapacity = 2 := by
  refine ⟨?_, ?_, ?_⟩
  · unfold Cache.entries
    rw [addAll_keys]
    simp [initCache]
  · exact (addAll_sizeInv (initCache e) kvs (by cases e <;> decide) (by cases e <;> decide)).2
  · rw [addAll_maxCapacity]
    rfl

/-! ## C2: the size invariant -/

/-- C2, as stated, fails for `evict`: the fresh cache satisfies
`0 ≤ size ≤ maxCapacity`, and `evict` on it leaves the counter at -1. -/
theorem evict_breaks_sizeInv :
    (initCache .Fifo).SizeInv ∧ (initCache .Fifo).evict.1.capacity = -1 ∧
    ¬ (initCache .Fifo).evict.1.SizeInv := by
  decide

/-- C2, amended: `0 ≤ size ≤ maxCapacity` holds in the state made by
`initCache`; `add`, `setEvictionAlgo` and `get` (which returns a value and
leaves the cache as it is) keep it on every state that satisfies it, and
`evict` keeps it on every such state whose counter is at least 1. -/
theorem sizeInv_preserved :
    (∀ e, (initCache e).SizeInv) ∧
    ∀ c : Cache, c.Representable → c.SizeInv →
      (∀ k v, (c.add k v).1.SizeInv) ∧
      (∀ e, (c.setEvictionAlgo e).SizeInv) ∧
      (1 ≤ c.capacity → c.evict.1.SizeInv) := by
  refine ⟨fun e => by cases e <;> decide, fun c hr hi => ⟨?_, ?_, ?_⟩⟩
  · exact fun k v => add_sizeInv c k v hr hi
  · exact fun _ => hi
  · intro h1
    obtain ⟨r1, r2, r3, r4⟩ := hr
    obtain ⟨i1, i2⟩ := hi
    rw [evict_eq]
    have hw : wrapInt (c.capacity - 1) = c.capacity - 1 :=
      wrapInt_of_range (by unfold minInt; omega) (by omega)
    simp only [Cache.SizeInv, hw]
    omega

/-- C2, witness: the amended invariant theorem applied to the cache that holds
one entry. -/
theorem sizeInv_preserved_witness :
    ((initCache .Lru).add "a" "1").1.Representable ∧
    ((initCache .Lru).add "a" "1").1.SizeInv ∧
    1 ≤ ((initCache .Lru).add "a" "1").1.capacity ∧
    ((initCache .Lru).add "a" "1").1.evict.1.SizeInv ∧
    ((((initCache .Lru).add "a" "1").1).add "b" "2").1.SizeInv :=
  ⟨by decide, by decide, by decide,
   (sizeInv_preserved.2 ((initCache .Lru).add "a" "1").1 (by decide) (by decide)).2.2 (by decide),
   (sizeInv_preserved.2 ((initCache .Lru).add "a" "1").1 (by decide) (by decide)).1 "b" "2"⟩

/-! ## C3: the Fifo scenario -/

/-- C3, as stated, fails: under Fifo, after `add(a,1)`, `add(b,2)`, `add(c,3)`
on a fresh cache the first-inserted key `a` is still in the map, and the map
is not `{b:2, c:3}`. -/
theorem fifo_first_key_not_removed :
    ¬ ("a" ∉ (addAll (initCache .Fifo) [("a", "1"), ("b", "2"), ("c", "3")]).1.storage) ∧
    (addAll (initCache .Fifo) [("a", "1"), ("b", "2"), ("c", "3")]).1.storage
      ≠ Finmap.insert "c" "3" (Finmap.singleton "b" "2") := by
  decide

/-- C3, amended: under Fifo, after adding `maxCapacity + 1` (three) pairwise
distinct keys to a fresh cache, the size counter equals `maxCapacity` and
Fifo's `evict` has run exactly once, but nothing was removed: the map holds
all three pairs, the first-inserted one included. -/
theorem fifo_three_adds (kvs : List (String × String))
    (hlen : (kvs.length : Int) = (initCache .Fifo).maxCapacity + 1)
    (hnd : (kvs.map Prod.fst).Nodup) :
    (addAll (initCache .Fifo) kvs).1.capacity = (addAll (initCache .Fifo) kvs).1.maxCapacity ∧
    (addAll (initCache .Fifo) kvs).2 = ["Evicting by fifo strategy"] ∧
    (addAll (initCache .Fifo) kvs).1.entries = kvs.length ∧
    (∀ kv ∈ kvs, (addAll (initCache .Fifo) kvs).1.storage.lookup kv.1 = some kv.2) ∧
    (∀ kv ∈ kvs.head?, kv.1 ∈ (addAll (initCache .Fifo) kvs).1.storage) := by
  have h3 : kvs.length = 3 := by
    have : (initCache .Fifo).maxCapacity = 2 := rfl
    omega
  match kvs, h3 with
  | [(k1, v1), (k2, v2), (k3, v3)], _ =>
    simp only [List.map_cons, List.map_nil, List.nodup_cons, List.mem_cons, List.mem_singleton,
      List.not_mem_nil, not_or, not_false_eq_true, List.nodup_nil, and_true] at hnd
    obtain ⟨⟨h12, h13⟩, h23⟩ := hnd
    have hst : (addAll (initCache .Fifo) [(k1, v1), (k2, v2), (k3, v3)]).1.storage
        = Finmap.insert k3 v3 (Finmap.insert k2 v2 (Finmap.insert k1 v1 ∅)) := by
      simp only [addAll, add_storage]
      rfl
    refine ⟨?_, ?_, ?_, ?_, ?_⟩
    · simp only [addAll, add_capacity, add_maxCapacity]
      decide
    · simp only [addAll, add_printed, add_capacity, add_maxCapacity, add_evictionAlgo]
      decide
    · unfold Cache.entries
      rw [hst]
      simp only [keys_insert, Finmap.keys_empty]
      rw [Finset.card_insert_of_not_mem, Finset.card_insert_of_not_mem,
        Finset.card_insert_of_not_mem] <;> simp [h12, h13, h23, Ne.symm h13, Ne.symm h23,
          Ne.symm h12]
    · intro kv hkv
      rw [hst]
      simp only [List.mem_cons, List.mem_singleton, List.not_mem_nil, or_false] at hkv
      rcases hkv with rfl | rfl | rfl
      · rw [Finmap.lookup_insert_of_ne _ h13, Finmap.lookup_insert_of_ne _ h12,
          Finmap.lookup_insert]
      · rw [Finmap.lookup_insert_of_ne _ h23, Finmap.lookup_insert]
      · rw [Finmap.lookup_insert]
    · intro kv hkv
      simp only [List.head?_cons, Option.mem_def, Option.some.injEq] at hkv
      subst hkv
      rw [hst]
      simp [Finmap.mem_insert]

/-- C3, witness: the amended Fifo theorem applied to `add(a,1)`, `add(b,2)`,
`add(c,3)`. -/
theorem fifo_three_adds_witness :
    (addAll (initCache .Fifo) [("a", "1"), ("b", "2"), ("c", "3")]).1.capacity = 2 ∧
    (addAll (initCache .Fifo) [("a", "1"), ("b", "2"), ("c", "3")]).2
      = ["Evicting by fifo strategy"] ∧
    (addAll (initCache .Fifo) [("a", "1"), ("b", "2"), ("c", "3")]).1.entries = 3 :=
  have h := fifo_three_adds [("a", "1"), ("b", "2"), ("c", "3")] (by decide) (by decide)
  ⟨h.1, h.2.1, h.2.2.1⟩

/-! ## C4: `add` on a key that is already stored -/

/-- C4, as stated, fails: `a` is stored and the counter is 1, and `add(a,2)`
moves the counter to 2; on the full cache holding `a` and `b`, `add(a,9)`
runs the strategy's `evict`. -/
theorem add_present_key_counts_again :
    ("a" ∈ ((initCache .Fifo).add "a" "1").1.storage ∧
      ((initCache .Fifo).add "a" "1").1.capacity = 1 ∧
      ((((initCache .Fifo).add "a" "1").1).add "a" "2").1.capacity = 2) ∧
    ("a" ∈ (addAll (initCache .Fifo) [("a", "1"), ("b", "2")]).1.storage ∧
      (((addAll (initCache .Fifo) [("a", "1"), ("b", "2")]).1).add "a" "9").2
        = ["Evicting by fifo strategy"]) := by
  decide

/-- C4, amended: for every cache state and every key already stored,
`add(key, value)` changes in the map only the value under that key (same keys,
same number of entries, other keys read as before) and leaves the strategy and
`maxCapacity` alone, but it counts the key like a new one: when the counter
differs from `maxCapacity` no eviction runs and the counter is incremented
(by one when it is below `maxCapacity`); when the counter equals `maxCapacity`
the active strategy's `evict` runs once and the counter ends where it was. -/
theorem add_present_key (c : Cache) (k v : String)
    (hr : c.Representable) (hk : k ∈ c.storage) :
    (c.add k v).1.storage.keys = c.storage.keys ∧
    (c.add k v).1.entries = c.entries ∧
    (c.add k v).1.storage.lookup k = some v ∧
    (∀ k2, k2 ≠ k → (c.add k v).1.storage.lookup k2 = c.storage.lookup k2) ∧
    (c.add k v).1.evictionAlgo = c.evictionAlgo ∧
    (c.add k v).1.maxCapacity = c.maxCapacity ∧
    (c.capacity ≠ c.maxCapacity →
      (c.add k v).2 = [] ∧ (c.add k v).1.capacity = wrapInt (c.capacity + 1)) ∧
    (c.capacity < c.maxCapacity → (c.add k v).1.capacity = c.capacity + 1) ∧
    (c.capacity = c.maxCapacity →
      (c.add k v).2 = [c.evictionAlgo.line] ∧ (c.add k v).1.capacity = c.capacity) := by
  obtain ⟨r1, r2, r3, r4⟩ := hr
  have hkeys : (c.add k v).1.storage.keys = c.storage.keys := by
    rw [add_storage, keys_insert]
    exact Finset.insert_eq_of_mem (Finmap.mem_keys.mpr hk)
  refine ⟨hkeys, ?_, ?_, ?_, add_evictionAlgo c k v, add_maxCapacity c k v, ?_, ?_, ?_⟩
  · unfold Cache.entries
    rw [hkeys]
  · rw [add_storage, Finmap.lookup_insert]
  · intro k2 h2
    rw [add_storage, Finmap.lookup_insert_of_ne _ h2]
  · intro h
    rw [add_printed, add_capacity, if_neg h, if_neg h]
    exact ⟨rfl, rfl⟩
  · intro h
    rw [add_capacity, if_neg (ne_of_lt h)]
    exact wrapInt_of_range (by unfold minInt at *; omega) (by omega)
  · intro h
    rw [add_printed, add_capacity, if_pos h, if_pos h]
    exact ⟨rfl, wrapInt_pred_succ r1 r2⟩

/-- C4, witness: the amended theorem applied to the cache holding `a`, with
`add(a,2)`. -/
theorem add_present_key_witness :
    ((initCache .Fifo).add "a" "1").1.Representable ∧
    "a" ∈ ((initCache .Fifo).add "a" "1").1.storage ∧
    ((((initCache .Fifo).add "a" "1").1).add "a" "2").1.entries
      = ((initCache .Fifo).add "a" "1").1.entries ∧
    ((((initCache .Fifo).add "a" "1").1).add "a" "2").1.storage.lookup "a" = some "2" ∧
    ((((initCache .Fifo).add "a" "1").1).add "a" "2").1.capacity
      = ((initCache .Fifo).add "a" "1").1.capacity + 1 :=
  have h := add_present_key ((initCache .Fifo).add "a" "1").1 "a" "2" (by decide) (by decide)
  ⟨by decide, by decide, h.2.1, h.2.2.1, h.2.2.2.2.2.2.2.1 (by decide)⟩

/-! ## C5: round trip -/

/-- C5: for every cache state, key `k` and value `v`, `add(k, v)` followed
immediately by `get(k)` returns `v`. -/
theorem get_after_add (c : Cache) (k v : String) : (c.add k v).1.get k = v := by
  unfold Cache.get
  rw [add_storage, Finmap.lookup_insert]
  rfl

/-! ## C6: `evict` at size 0 -/

/-- C6, as stated, fails: the fresh cache has counter 0, and `evict` on it
returns a changed cache whose counter is -1. -/
theorem evict_at_zero_changes_cache :
    (initCache .Fifo).capacity = 0 ∧
    ¬ ((initCache .Fifo).evict.1 = initCache .Fifo) ∧
    ¬ ((initCache .Fifo).evict.1.capacity = 0) := by
  decide

/-- C6, amended: `evict` has no error result; on a cache whose size counter is
0 it runs the active strategy's `evict`, which prints its line, and decrements
the counter to -1, leaving the map, the strategy and `maxCapacity` unchanged. -/
theorem evict_at_zero (c : Cache) (h0 : c.capacity = 0) :
    c.evict = ({ c with capacity := -1 }, [c.evictionAlgo.line]) := by
  rw [evict_eq, h0]
  rfl

/-- C6, witness: the amended theorem applied to the fresh Lfu cache. -/
theorem evict_at_zero_witness :
    (initCache .Lfu).capacity = 0 ∧
    (initCache .Lfu).evict =
      ({ storage := ∅, evictionAlgo := .Lfu, capacity := -1, maxCapacity := 2 },
        ["Evicting by lfu strategy"]) :=
  ⟨rfl, evict_at_zero (initCache .Lfu) rfl⟩

/-! ## C7: adds within capacity -/

/-- C7: for every list of `n` pairwise distinct keys with `n ≤ maxCapacity`,
adding them one by one to a fresh cache yields size counter `n`, and nothing
is printed on the way: no eviction runs. The map then holds `n` entries. -/
theorem adds_within_capacity (e : EvictionAlgo) (kvs : List (String × String))
    (hnd : (kvs.map Prod.fst).Nodup)
    (hlen : (kvs.length : Int) ≤ (initCache e).maxCapacity) :
    (addAll (initCache e) kvs).1.capacity = kvs.length ∧
    (addAll (initCache e) kvs).2 = [] ∧
    (addAll (initCache e) kvs).1.entries = kvs.length := by
  have hm : (initCache e).maxCapacity = 2 := rfl
  have h := addAll_below_capacity (initCache e) kvs (by unfold minInt initCache; simp)
    (by unfold maxInt initCache; simp) (by rw [hm] at hlen ⊢; simpa [initCache] using hlen)
  refine ⟨?_, h.2, ?_⟩
  · rw [h.1]
    simp [initCache]
  · unfold Cache.entries
    have hk : (initCache e).storage.keys = ∅ := rfl
    rw [addAll_keys, hk, Finset.empty_union, List.toFinset_card_of_nodup hnd, List.length_map]

/-- C7, witness: two distinct keys on a fresh Lfu cache. -/
theorem adds_within_capacity_witness :
    (addAll (initCache .Lfu) [("a", "1"), ("b", "2")]).1.capacity = 2 ∧
    (addAll (initCache .Lfu) [("a", "1"), ("b", "2")]).2 = [] ∧
    (addAll (initCache .Lfu) [("a", "1"), ("b", "2")]).1.entries = 2 :=
  adds_within_capacity .Lfu [("a", "1"), ("b", "2")] (by decide) (by decide)

/-! ## C8: swapping the strategy -/

/-- C8: for every cache state and strategy `e`, `setEvictionAlgo(e)` changes
only the strategy field (map, size counter and `maxCapacity` are unchanged),
and every eviction after it is performed by `e`: `evict` prints what `e.evict`
prints, `add` on the full cache prints the line of `e`, every line printed by
any later run of `add` calls is the line of `e`, and that line is not the one
of the previous strategy when the two differ. -/
theorem setEvictionAlgo_frame (c : Cache) (e : EvictionAlgo) :
    c.setEvictionAlgo e = { c with evictionAlgo := e } ∧
    (c.setEvictionAlgo e).storage = c.storage ∧
    (c.setEvictionAlgo e).capacity = c.capacity ∧
    (c.setEvictionAlgo e).maxCapacity = c.maxCapacity ∧
    (c.setEvictionAlgo e).evictionAlgo = e ∧
    (c.setEvictionAlgo e).evict.2 = (e.evict (c.setEvictionAlgo e)).2 ∧
    (c.setEvictionAlgo e).evict.2 = [e.line] ∧
    (∀ k v, c.capacity = c.maxCapacity → ((c.setEvictionAlgo e).add k v).2 = [e.line]) ∧
    (∀ kvs, ∀ l ∈ (addAll (c.setEvictionAlgo e) kvs).2, l = e.line) ∧
    (c.evictionAlgo ≠ e → e.line ≠ c.evictionAlgo.line) := by
  refine ⟨rfl, rfl, rfl, rfl, rfl, rfl, ?_, ?_, ?_, ?_⟩
  · rw [evict_eq]
    rfl
  · intro k v h
    rw [add_printed, if_pos (by exact h)]
    rfl
  · intro kvs l hl
    exact addAll_printed_lines (c.setEvictionAlgo e) kvs l hl
  · intro hne heq
    exact hne (line_injective heq).symm

/-- C8, witness: the run of the example, Lfu swapped for Lru on a full cache;
the next `add` prints the Lru line and not the Lfu line. -/
theorem setEvictionAlgo_frame_witness :
    (((addAll (initCache .Lfu) [("a", "1"), ("b", "2"), ("c", "3")]).1.setEvictionAlgo .Lru).add
        "d" "4").2 = ["Evicting by lru strategy"] ∧
    EvictionAlgo.line .Lru ≠ EvictionAlgo.line .Lfu :=
  have h := setEvictionAlgo_frame (addAll (initCache .Lfu) [("a", "1"), ("b", "2"), ("c", "3")]).1
    .Lru
  ⟨h.2.2.2.2.2.2.2.1 "d" "4" (by decide), h.2.2.2.2.2.2.2.2.2 (by decide)⟩

/-! ## C9: `add` on a full cache -/

/-- C9: for every cache state whose size counter equals `maxCapacity` and every
key not in the map, `add(key, value)` first runs `Cache.evict` (the active
strategy's `evict` runs exactly once: exactly its one line is printed), then
inserts the pair (one entry more in the map) and increments the counter,
which is again `maxCapacity`; when the counter is below `maxCapacity`, `add`
runs no eviction. -/
theorem add_on_full_cache (c : Cache) (k v : String) (hr : c.Representable) :
    (c.capacity = c.maxCapacity → k ∉ c.storage →
      c.add k v = ({ c.evict.1 with capacity := wrapInt (c.evict.1.capacity + 1),
                                    storage := c.evict.1.storage.insert k v }, c.evict.2) ∧
      c.evict.2 = (c.evictionAlgo.evict c).2 ∧
      (c.add k v).2 = [c.evictionAlgo.line] ∧
      (c.add k v).1.capacity = wrapInt (c.evict.1.capacity + 1) ∧
      (c.add k v).1.capacity = c.maxCapacity ∧
      (c.add k v).1.storage = c.storage.insert k v ∧
      (c.add k v).1.storage.lookup k = some v ∧
      (c.add k v).1.entries = c.entries + 1) ∧
    (c.capacity < c.maxCapacity → (c.add k v).2 = []) := by
  obtain ⟨r1, r2, r3, r4⟩ := hr
  refine ⟨fun h hk => ⟨?_, rfl, ?_, ?_, ?_, add_storage c k v, ?_, ?_⟩, fun h => ?_⟩
  · unfold Cache.add
    rw [if_pos h]
  · rw [add_printed, if_pos h]
  · rw [add_capacity, if_pos h, evict_eq]
  · rw [add_capacity, if_pos h, wrapInt_pred_succ r1 r2]
    exact h
  · rw [add_storage, Finmap.lookup_insert]
  · unfold Cache.entries
    rw [add_storage, keys_insert]
    exact Finset.card_insert_of_not_mem (fun hm => hk (Finmap.mem_keys.mp hm))
  · rw [add_printed, if_neg (ne_of_lt h)]

/-- C9, witness: the full cache holding `a` and `b` receives the new key `c`;
the cache holding only `a` receives `b` without eviction. -/
theorem add_on_full_cache_witness :
    ((addAll (initCache .Fifo) [("a", "1"), ("b", "2")]).1.add "c" "3").2
      = ["Evicting by fifo strategy"] ∧
    ((addAll (initCache .Fifo) [("a", "1"), ("b", "2")]).1.add "c" "3").1.capacity = 2 ∧
    ((addAll (initCache .Fifo) [("a", "1")]).1.add "b" "2").2 = [] :=
  have h := (add_on_full_cache (addAll (initCache .Fifo) [("a", "1"), ("b", "2")]).1 "c" "3"
    (by decide)).1 (by decide) (by decide)
  ⟨h.2.2.1, h.2.2.2.2.1,
   (add_on_full_cache (addAll (initCache .Fifo) [("a", "1")]).1 "b" "2" (by decide)).2
     (by decide)⟩

/-! ## C10: the Lru scenario -/

/-- C10, as stated, fails: under Lru, after `add(a,1)`, `add(b,2)`, `get(a)`
(which returns `1` and leaves the cache as it is) and `add(c,3)`, the key `b`
is still in the map, and the map is not `{a:1, c:3}`. -/
theorem lru_evicts_no_key :
    (addAll (initCache .Lru) [("a", "1"), ("b", "2")]).1.get "a" = "1" ∧
    ¬ ("b" ∉ ((addAll (initCache .Lru) [("a", "1"), ("b", "2")]).1.add "c" "3").1.storage) ∧
    ((addAll (initCache .Lru) [("a", "1"), ("b", "2")]).1.add "c" "3").1.storage
      ≠ Finmap.insert "c" "3" (Finmap.singleton "a" "1") := by
  decide

/-- C10, amended: under the Lru strategy an eviction removes no key: `evict`
on any cache whose strategy is Lru prints the Lru line and leaves the map as
it is; with capacity 2, `add(a,1)`, `add(b,2)`, `get(a)`, `add(c,3)` runs
Lru's `evict` once, keeps `b`, and leaves the map exactly `{a:1, b:2, c:3}`
with size counter 2. -/
theorem lru_scenario :
    (∀ (s : Storage) (n m : Int),
      (Cache.evict ⟨s, .Lru, n, m⟩).1.storage = s ∧
      (Cache.evict ⟨s, .Lru, n, m⟩).2 = ["Evicting by lru strategy"]) ∧
    (addAll (initCache .Lru) [("a", "1"), ("b", "2")]).1.get "a" = "1" ∧
    ((addAll (initCache .Lru) [("a", "1"), ("b", "2")]).1.add "c" "3").2
      = ["Evicting by lru strategy"] ∧
    "b" ∈ ((addAll (initCache .Lru) [("a", "1"), ("b", "2")]).1.add "c" "3").1.storage ∧
    ((addAll (initCache .Lru) [("a", "1"), ("b", "2")]).1.add "c" "3").1.storage
      = Finmap.insert "c" "3" (Finmap.insert "b" "2" (Finmap.singleton "a" "1")) ∧
    ((addAll (initCache .Lru) [("a", "1"), ("b", "2")]).1.add "c" "3").1.capacity = 2 := by
  refine ⟨fun s n m => ⟨rfl, rfl⟩, ?_, ?_, ?_, ?_, ?_⟩ <;> decide

/-! ## C11: what `get` tells about presence -/

/-- C11, as stated, fails: after `add(a, "")` the key `a` is stored and `b` is
not, and `get` returns the same empty string for both. -/
theorem get_absent_same_as_empty_value :
    "a" ∈ ((initCache .Fifo).add "a" "").1.storage ∧
    "b" ∉ ((initCache .Fifo).add "a" "").1.storage ∧
    ((initCache .Fifo).add "a" "").1.get "b" = ((initCache .Fifo).add "a" "").1.get "a" := by
  decide

/-- C11, amended: `get(key)` returns only a string, with no found indicator:
for a key absent from the map it returns the empty string, for a stored key
its value, so the result for an absent key differs from the result for a
stored key exactly when the value stored under that key is not empty. -/
theorem get_absent_vs_present (c : Cache) (k1 k2 v : String)
    (h1 : k1 ∉ c.storage) (h2 : c.storage.lookup k2 = some v) :
    c.get k1 = "" ∧ c.get k2 = v ∧ (c.get k1 ≠ c.get k2 ↔ v ≠ "") := by
  have e1 : c.get k1 = "" := by
    unfold Cache.get
    rw [Finmap.lookup_eq_none.mpr h1]
    rfl
  have e2 : c.get k2 = v := by
    unfold Cache.get
    rw [h2]
    rfl
  refine ⟨e1, e2, ?_⟩
  rw [e1, e2]
  exact ⟨fun h => Ne.symm h, fun h => Ne.symm h⟩

/-- C11, witness: the amended theorem on the cache holding `a:1`, with the
absent key `b`. -/
theorem get_absent_vs_present_witness :
    ((initCache .Fifo).add "a" "1").1.get "b" = "" ∧
    ((initCache .Fifo).add "a" "1").1.get "a" = "1" ∧
    ((initCache .Fifo).add "a" "1").1.get "b" ≠ ((initCache .Fifo).add "a" "1").1.get "a" :=
  have h := get_absent_vs_present ((initCache .Fifo).add "a" "1").1 "b" "a" "1"
    (by decide) (by decide)
  ⟨h.1, h.2.1, h.2.2.mpr (by decide)⟩

/-! ## C12: the strategies only print -/

/-- C12: for every cache state, each of `Fifo`, `Lru` and `Lfu` only prints its
line and returns the cache as it was; so `Cache.evict` leaves the map, the
strategy and `maxCapacity` unchanged and only decrements the size counter (by
one, whenever the counter is above the smallest `int`). -/
theorem strategies_only_print (c : Cache) :
    Fifo.evict c = (c, ["Evicting by fifo strategy"]) ∧
    Lru.evict c = (c, ["Evicting by lru strategy"]) ∧
    Lfu.evict c = (c, ["Evicting by lfu strategy"]) ∧
    (∀ e : EvictionAlgo, (e.evict c).1 = c) ∧
    c.evict.1.storage = c.storage ∧
    c.evict.1.evictionAlgo = c.evictionAlgo ∧
    c.evict.1.maxCapacity = c.maxCapacity ∧
    c.evict.1 = { c with capacity := wrapInt (c.capacity - 1) } ∧
    (minInt < c.capacity → c.capacity ≤ maxInt → c.evict.1.capacity = c.capacity - 1) := by
  refine ⟨rfl, rfl, rfl, fun e => strategy_evict_fst e c, ?_, ?_, ?_, ?_, ?_⟩
  · rw [evict_eq]
  · rw [evict_eq]
  · rw [evict_eq]
  · rw [evict_eq]
  · intro h1 h2
    rw [evict_eq]
    exact wrapInt_of_range (by unfold minInt at *; omega) (by omega)

/-- C12, witness: `evict` on the full Lru cache holding `a` and `b` brings the
counter from 2 to 1. -/
theorem strategies_only_print_witness :
    (addAll (initCache .Lru) [("a", "1"), ("b", "2")]).1.evict.1.capacity
      = (addAll (initCache .Lru) [("a", "1"), ("b", "2")]).1.capacity - 1 :=
  (strategies_only_print (addAll (initCache .Lru) [("a", "1"), ("b", "2")]).1).2.2.2.2.2.2.2.2
    (by decide) (by decide)

end Strategy

namespace IteratorPattern

/-! ## C13: sequential traversal -/

theorem hasNext_iff (i : Nat) (L : List UserPtr) :
    (UserIterator.mk i L).hasNext = true ↔ i < L.length := by
  simp [UserIterator.hasNext]

theorem getNext_of_lt (i : Nat) (L : List UserPtr) (h : i < L.length) :
    (UserIterator.mk i L).getNext = some (L[i], ⟨(i : Int) + 1, L⟩) := by
  unfold UserIterator.getNext
  rw [if_pos ((hasNext_iff i L).mpr h)]
  simp [h]

theorem traverse_from (k : Nat) :
    ∀ (L : List UserPtr) (i : Nat), L.length - i = k → i ≤ L.length →
      (UserIterator.mk i L).traverse = some (L.drop i, ⟨L.length, L⟩) := by
  induction k with
  | zero =>
    intro L i hk hi
    have hil : i = L.length := by omega
    subst hil
    rw [UserIterator.traverse]
    have hn : ¬ ((UserIterator.mk (L.length : Nat) L).hasNext = true) := by
      rw [hasNext_iff]
      omega
    rw [dif_neg hn]
    simp
  | succ k ih =>
    intro L i hk hi
    have hlt : i < L.length := by omega
    rw [UserIterator.traverse, dif_pos ((hasNext_iff i L).mpr hlt)]
    split
    · next hg =>
      rw [getNext_of_lt i L hlt] at hg
      exact absurd hg (by simp)
    · next user it2 hg =>
      rw [getNext_of_lt i L hlt] at hg
      simp only [Option.some.injEq, Prod.mk.injEq] at hg
      obtain ⟨rfl, rfl⟩ := hg
      have hrec := ih L (i + 1) (by omega) (by omega)
      rw [show ((i : Int) + 1) = ((i + 1 : Nat) : Int) by simp, hrec,
        List.drop_eq_getElem_cons hlt]
      rfl

/-- C13: for every `UserCollection` with users list `L`, the loop
`for hasNext() { getNext() }` on the iterator made by `createIterator`
terminates without panic; the values returned by `getNext`, one per call, are
exactly `L` in list order, so there are `len(L)` calls, and `hasNext` is false
at the end. -/
theorem traverse_createIterator (c : UserCollection) :
    c.createIterator.traverse
      = some (c.users, { index := c.users.length, users := c.users }) ∧
    (c.createIterator.traverse.map fun r => r.1.length) = some c.users.length ∧
    (c.createIterator.traverse.map fun r => r.2.hasNext) = some false ∧
    (UserCollection.mk [some ⟨"a", 30⟩, some ⟨"b", 20⟩]).createIterator.traverse
      = some ([some ⟨"a", 30⟩, some ⟨"b", 20⟩], ⟨2, [some ⟨"a", 30⟩, some ⟨"b", 20⟩]⟩) := by
  have key : ∀ c : UserCollection,
      c.createIterator.traverse = some (c.users, ⟨c.users.length, c.users⟩) := by
    intro c
    have h := traverse_from c.users.length c.users 0 (by omega) (by omega)
    simpa [UserCollection.createIterator] using h
  refine ⟨key c, ?_, ?_, key _⟩
  · rw [key c]
    rfl
  · rw [key c]
    simp [UserIterator.hasNext]

end IteratorPattern

namespace AbstractFactory

/-! ## C14: `GetMessageFactory` -/

/-- C14: `GetMessageFactory(channel)` returns a factory and a nil error if and
only if `channel` is exactly `whatsapp` (the WhatsApp factory) or `telegram`
(the Telegram factory); for every other string it returns a nil factory and
the error `wrong channel type passed`. -/
theorem getMessageFactory_spec (channel : String) :
    (GetMessageFactory channel = (some IFactory.WhatsApp, none) ↔ channel = "whatsapp") ∧
    (GetMessageFactory channel = (some IFactory.Telegram, none) ↔ channel = "telegram") ∧
    ((∃ f, GetMessageFactory channel = (some f, none)) ↔
      (channel = "whatsapp" ∨ channel = "telegram")) ∧
    (¬ (channel = "whatsapp" ∨ channel = "telegram") →
      GetMessageFactory channel = (none, some "wrong channel type passed")) := by
  unfold GetMessageFactory
  by_cases h1 : channel = "whatsapp"
  · subst h1
    simp
  · by_cases h2 : channel = "telegram"
    · subst h2
      simp
    · simp [h1, h2]

/-- C14, witness: the two channels of the example and a channel that is not
known. -/
theorem getMessageFactory_spec_witness :
    GetMessageFactory "whatsapp" = (some IFactory.WhatsApp, none) ∧
    GetMessageFactory "telegram" = (some IFactory.Telegram, none) ∧
    GetMessageFactory "Whatsapp" = (none, some "wrong channel type passed") :=
  ⟨(getMessageFactory_spec "whatsapp").1.mpr rfl,
   (getMessageFactory_spec "telegram").2.1.mpr rfl,
   (getMessageFactory_spec "Whatsapp").2.2.2 (by decide)⟩

end AbstractFactory

namespace BuilderPattern

/-! ## C15: the shared building process -/

/-- C15: for every director, holding either concrete builder in any prior
state, `buildFlow(t, f, b)` returns the `Flow` whose `channelType` is `t`,
`features` is `f` and `bannedContacts` is `b`; so the result is the same for
both builders and whatever was set earlier. -/
theorem buildFlow_spec (d : Director) (t : String) (f : List String) (b : List Nat) :
    (d.buildFlow t f b).1 = { channelType := t, features := f, bannedContacts := b } ∧
    (∀ d2 : Director, (d2.buildFlow t f b).1 = (d.buildFlow t f b).1) ∧
    (∀ (m : MessagingFlowBuilder) (v : VoiceFlowBuilder),
      ((newDirector (.messaging m)).buildFlow t f b).1
        = ((newDirector (.voice v)).buildFlow t f b).1) := by
  have key : ∀ d : Director,
      (d.buildFlow t f b).1 = { channelType := t, features := f, bannedContacts := b } := by
    intro d
    obtain ⟨bl⟩ := d
    cases bl <;> rfl
  refine ⟨key d, fun d2 => ?_, fun m v => ?_⟩
  · rw [key d2, key d]
  · rw [key, key]

end BuilderPattern

namespace ObserverPattern

/-! ## C16: `updateStatus` notifies every observer -/

theorem notifyLoop_eq (l : List Observer) (name : String) :
    notifyLoop l name = l.map fun o =>
      "Sending email to customer " ++ o.id ++ " for item " ++ name := by
  induction l with
  | nil => rfl
  | cons o rest ih =>
    simp only [notifyLoop, ih, Manager.update, List.map_cons, List.singleton_append]

/-- C16: for every `Task`, `updateStatus` sets `status` to true and leaves the
observer list and the name unchanged; after its own line it prints exactly what
`update(name)` prints for each element of `observerList`, once each, in
registration order, and nothing else. -/
theorem updateStatus_spec (t : Task) :
    t.updateStatus.1.status = true ∧
    t.updateStatus.1.observerList = t.observerList ∧
    t.updateStatus.1.name = t.name ∧
    t.updateStatus.2 = (t.name ++ " status has changed") ::
      (t.observerList.map fun o => o.update t.name).flatten ∧
    t.updateStatus.2 = (t.name ++ " status has changed") ::
      t.observerList.map (fun o =>
        "Sending email to customer " ++ o.id ++ " for item " ++ t.name) ∧
    t.updateStatus.2.length = 1 + t.observerList.length ∧
    (∀ o : Observer, (t.register o).updateStatus.2 = t.updateStatus.2 ++ o.update t.name) := by
  have h2 : t.updateStatus.2 = (t.name ++ " status has changed") ::
      t.observerList.map (fun o =>
        "Sending email to customer " ++ o.id ++ " for item " ++ t.name) := by
    simp only [Task.updateStatus, Task.notifyAll, notifyLoop_eq]
  refine ⟨rfl, rfl, rfl, ?_, h2, ?_, ?_⟩
  · rw [h2]
    congr 1
    induction t.observerList with
    | nil => rfl
    | cons o rest ih =>
      simp only [List.map_cons, List.flatten_cons, Manager.update, List.singleton_append, ih]
  · rw [h2]
    simp
    omega
  · intro o
    simp only [Task.updateStatus, Task.notifyAll, notifyLoop_eq, Task.register, List.map_append,
      List.map_cons, List.map_nil, Manager.update, List.cons_append]

end ObserverPattern

namespace Composite

/-! ## C17: `Folder.search` walks the tree in pre-order -/

mutual
theorem component_search_preorder :
    ∀ (c : Component) (kw : String), c.search kw = c.preorder.map (Node.line kw)
  | .file f, kw => by
    simp only [Component.search, File.search, Component.preorder, List.map_cons, List.map_nil,
      Node.line]
  | .folder f, kw => by
    simp only [Component.search, Component.preorder, folder_search_preorder f kw]
theorem folder_search_preorder :
    ∀ (f : Folder) (kw : String), f.search kw = f.preorder.map (Node.line kw)
  | .mk cs name, kw => by
    simp only [Folder.search, Folder.preorder, List.map_cons, Node.line,
      searchLoop_preorder cs kw]
theorem searchLoop_preorder :
    ∀ (cs : List Component) (kw : String), searchLoop cs kw = (preorderOf cs).map (Node.line kw)
  | [], kw => by
    simp only [searchLoop, preorderOf, List.map_nil]
  | c :: rest, kw => by
    simp only [searchLoop, preorderOf, List.map_append, component_search_preorder c kw,
      searchLoop_preorder rest kw]
end

mutual
theorem component_preorder_length : ∀ c : Component, c.preorder.length = c.nodes
  | .file f => by
    simp only [Component.preorder, Component.nodes, List.length_singleton]
  | .folder f => by
    simp only [Component.preorder, Component.nodes, folder_preorder_length f]
theorem folder_preorder_length : ∀ f : Folder, f.preorder.length = f.nodes
  | .mk cs name => by
    simp only [Folder.preorder, Folder.nodes, List.length_cons, preorderOf_length cs]
    omega
theorem preorderOf_length : ∀ cs : List Component, (preorderOf cs).length = nodesOf cs
  | [] => by
    simp only [preorderOf, nodesOf, List.length_nil]
  | c :: rest => by
    simp only [preorderOf, nodesOf, List.length_append, component_preorder_length c,
      preorderOf_length rest]
end

theorem searchLoop_eq_flatten (cs : List Component) (kw : String) :
    searchLoop cs kw = (cs.map fun c => c.search kw).flatten := by
  induction cs with
  | nil => simp only [searchLoop, List.map_nil, List.flatten_nil]
  | cons c rest ih => simp only [searchLoop, ih, List.map_cons, List.flatten_cons]

theorem searchLoop_append (cs ds : List Component) (kw : String) :
    searchLoop (cs ++ ds) kw = searchLoop cs kw ++ searchLoop ds kw := by
  simp only [searchLoop_eq_flatten, List.map_append, List.flatten_append]

/-- C17: for every finite tree of folders and files, `Folder.search(keyword)`
is a total function that prints one line per node, in pre-order: first the
folder's own line, then what `search` prints on each component, in the order
the components stand in the list, which is the order in which `add` put them;
the number of lines is the number of nodes of the tree. -/
theorem folder_search_spec (f : Folder) (kw : String) :
    f.search kw = f.preorder.map (Node.line kw) ∧
    f.search kw =
      ("Searching recursively for keyword " ++ kw ++ " in folder " ++ f.name) ::
        (f.components.map fun c => c.search kw).flatten ∧
    (f.search kw).length = f.nodes ∧
    (∀ c : Component, (f.add c).components = f.components ++ [c] ∧
      (f.add c).search kw = f.search kw ++ c.search kw) := by
  refine ⟨folder_search_preorder f kw, ?_, ?_, ?_⟩
  · obtain ⟨cs, name⟩ := f
    simp only [Folder.search, Folder.components, Folder.name, searchLoop_eq_flatten]
  · rw [folder_search_preorder, List.length_map, folder_preorder_length]
  · intro c
    obtain ⟨cs, name⟩ := f
    refine ⟨rfl, ?_⟩
    simp only [Folder.add, Folder.search, searchLoop_append, searchLoop, List.append_nil,
      List.cons_append]

end Composite

namespace ObserverPattern

/-! ## C18: `removeFromSlice` -/

theorem swapAndCut_last (A : List Observer) (x : Observer) :
    swapAndCut (A ++ [x]) A.length = A := by
  simp [swapAndCut]

theorem swapAndCut_inner (A B : List Observer) (x z : Observer) :
    swapAndCut (A ++ x :: (B ++ [z])) A.length = A ++ z :: B := by
  have hlen : (A ++ x :: (B ++ [z])).length - 1 = A.length + (B.length + 1) := by
    simp
  have hx : (A ++ x :: (B ++ [z]))[A.length]? = some x := by
    rw [List.getElem?_append_right (Nat.le_refl _), Nat.sub_self, List.getElem?_cons_zero]
  have hz : (A ++ x :: (B ++ [z]))[A.length + (B.length + 1)]? = some z := by
    rw [List.getElem?_append_right (by omega)]
    simp
  unfold swapAndCut
  rw [hlen, hx, hz]
  simp only
  rw [List.set_append_right _ _ (by omega)]
  rw [show A.length + (B.length + 1) - A.length = B.length + 1 by omega, List.set_cons_succ,
    List.set_append_right _ _ (by omega), Nat.sub_self, List.set_cons_zero,
    List.set_append_right _ _ (Nat.le_refl _), Nat.sub_self, List.set_cons_zero]
  rw [List.take_append_eq_append_take]
  simp

theorem loop_no_match (L : List Observer) (o : Observer) :
    ∀ (rest : List Observer) (i : Nat), (∀ x ∈ rest, x.getID ≠ o.getID) →
      removeFromSliceLoop L o i rest = L := by
  intro rest
  induction rest with
  | nil =>
    intro i _
    rfl
  | cons y rest ih =>
    intro i h
    have hy : ¬ (o.getID = y.getID) := fun e => h y (List.mem_cons_self y rest) e.symm
    rw [removeFromSliceLoop, if_neg hy]
    exact ih (i + 1) (fun x hx => h x (List.mem_cons_of_mem y hx))

theorem loop_first_match (L : List Observer) (o x : Observer) (R : List Observer)
    (hx : x.getID = o.getID) :
    ∀ (A2 : List Observer) (i : Nat), (∀ a ∈ A2, a.getID ≠ o.getID) →
      removeFromSliceLoop L o i (A2 ++ x :: R) = swapAndCut L (i + A2.length) := by
  intro A2
  induction A2 with
  | nil =>
    intro i _
    rw [List.nil_append, removeFromSliceLoop, if_pos hx.symm]
    rfl
  | cons a A2 ih =>
    intro i h
    have ha : ¬ (o.getID = a.getID) := fun e => h a (List.mem_cons_self a A2) e.symm
    rw [List.cons_append, removeFromSliceLoop, if_neg ha,
      ih (i + 1) (fun b hb => h b (List.mem_cons_of_mem a hb)), List.length_cons]
    congr 1
    omega

theorem swapAndCut_perm (A R : List Observer) (x : Observer) :
    (swapAndCut (A ++ x :: R) A.length).Perm (A ++ R) := by
  rcases List.eq_nil_or_concat R with rfl | ⟨B, z, rfl⟩
  · rw [swapAndCut_last, List.append_nil]
  · rw [List.concat_eq_append, swapAndCut_inner]
    exact List.Perm.append_left A (List.perm_append_singleton z B).symm

theorem exists_first_match (o : Observer) :
    ∀ L : List Observer, (∃ y ∈ L, y.getID = o.getID) →
      ∃ (A : List Observer) (x : Observer) (R : List Observer),
        L = A ++ x :: R ∧ (∀ a ∈ A, a.getID ≠ o.getID) ∧ x.getID = o.getID := by
  intro L
  induction L with
  | nil =>
    rintro ⟨y, hy, _⟩
    exact absurd hy (List.not_mem_nil y)
  | cons y L ih =>
    intro h
    by_cases hy : y.getID = o.getID
    · exact ⟨[], y, L, rfl, fun a ha => absurd ha (List.not_mem_nil a), hy⟩
    · obtain ⟨w, hw, hwid⟩ := h
      have hwL : w ∈ L := by
        rcases List.mem_cons.mp hw with rfl | hm
        · exact absurd hwid hy
        · exact hm
      obtain ⟨A, x, R, hL, hA, hx⟩ := ih ⟨w, hwL, hwid⟩
      refine ⟨y :: A, x, R, by rw [hL]; rfl, ?_, hx⟩
      intro a ha
      rcases List.mem_cons.mp ha with rfl | hm
      · exact hy
      · exact hA a hm

/-- C18: for every observer list `L` and observer `o`: if no element of `L` has
the ID of `o`, `removeFromSlice(L, o)` returns `L` unchanged; otherwise, with
`x` the first element whose ID is that of `o` (`L = A ++ x :: R`, no match in
`A`), it returns a list of length `len(L) - 1` that is a permutation of `L`
without `x`, that is of `A ++ R`: every later element, duplicates of the ID
included, stays, and the order of the rest may change (the last element moves
to the place of `x`). -/
theorem removeFromSlice_spec (L : List Observer) (o : Observer) :
    ((∀ y ∈ L, y.getID ≠ o.getID) → removeFromSlice L o = L) ∧
    (∀ (A R : List Observer) (x : Observer),
      L = A ++ x :: R → (∀ a ∈ A, a.getID ≠ o.getID) → x.getID = o.getID →
        removeFromSlice L o = swapAndCut L A.length ∧
        (removeFromSlice L o).length = L.length - 1 ∧
        (removeFromSlice L o).Perm (A ++ R) ∧
        L.eraseIdx A.length = A ++ R ∧
        (∀ y ∈ R, y ∈ removeFromSlice L o)) ∧
    ((∃ y ∈ L, y.getID = o.getID) →
      ∃ (A : List Observer) (x : Observer) (R : List Observer),
        L = A ++ x :: R ∧ (∀ a ∈ A, a.getID ≠ o.getID) ∧ x.getID = o.getID ∧
        (removeFromSlice L o).Perm (A ++ R)) ∧
    (∀ t : Task, (t.deregister o).observerList = removeFromSlice t.observerList o) := by
  have main : ∀ (A R : List Observer) (x : Observer),
      L = A ++ x :: R → (∀ a ∈ A, a.getID ≠ o.getID) → x.getID = o.getID →
        removeFromSlice L o = swapAndCut L A.length ∧ (removeFromSlice L o).Perm (A ++ R) := by
    intro A R x hL hA hx
    have h1 : removeFromSlice L o = swapAndCut L A.length := by
      have hloop := loop_first_match L o x R hx A 0 hA
      rw [← hL, Nat.zero_add] at hloop
      exact hloop
    refine ⟨h1, ?_⟩
    rw [h1, hL]
    exact swapAndCut_perm A R x
  refine ⟨fun h => loop_no_match L o L 0 h, ?_, ?_, fun _ => rfl⟩
  · intro A R x hL hA hx
    obtain ⟨h1, h2⟩ := main A R x hL hA hx
    refine ⟨h1, ?_, h2, ?_, ?_⟩
    · rw [h2.length_eq, hL]
      simp
    · rw [hL, List.eraseIdx_append_of_length_le (Nat.le_refl _), Nat.sub_self]
      rfl
    · intro y hy
      exact h2.symm.subset (List.mem_append_right A hy)
  · intro h
    obtain ⟨A, x, R, hL, hA, hx⟩ := exists_first_match o L h
    exact ⟨A, x, R, hL, hA, hx, (main A R x hL hA hx).2⟩

/-- C18, witness: the list `a, b, c, a, d` and an observer with ID `a`: the
first `a` goes, `d` takes its place, the second `a` stays; with ID `z` the list
is returned as it is. -/
theorem removeFromSlice_spec_witness :
    removeFromSlice [⟨"a"⟩, ⟨"b"⟩, ⟨"c"⟩, ⟨"a"⟩, ⟨"d"⟩] ⟨"a"⟩
      = swapAndCut [⟨"a"⟩, ⟨"b"⟩, ⟨"c"⟩, ⟨"a"⟩, ⟨"d"⟩] 0 ∧
    (removeFromSlice [⟨"a"⟩, ⟨"b"⟩, ⟨"c"⟩, ⟨"a"⟩, ⟨"d"⟩] ⟨"a"⟩).length = 4 ∧
    (removeFromSlice [⟨"a"⟩, ⟨"b"⟩, ⟨"c"⟩, ⟨"a"⟩, ⟨"d"⟩] ⟨"a"⟩).Perm
      [⟨"b"⟩, ⟨"c"⟩, ⟨"a"⟩, ⟨"d"⟩] ∧
    removeFromSlice [⟨"a"⟩, ⟨"b"⟩, ⟨"c"⟩, ⟨"a"⟩, ⟨"d"⟩] ⟨"z"⟩
      = [⟨"a"⟩, ⟨"b"⟩, ⟨"c"⟩, ⟨"a"⟩, ⟨"d"⟩] :=
  have h := (removeFromSlice_spec [⟨"a"⟩, ⟨"b"⟩, ⟨"c"⟩, ⟨"a"⟩, ⟨"d"⟩] ⟨"a"⟩).2.1
    [] [⟨"b"⟩, ⟨"c"⟩, ⟨"a"⟩, ⟨"d"⟩] ⟨"a"⟩ rfl (by decide) (by decide)
  ⟨h.1, h.2.1, h.2.2.1,
   (removeFromSlice_spec [⟨"a"⟩, ⟨"b"⟩, ⟨"c"⟩, ⟨"a"⟩, ⟨"d"⟩] ⟨"z"⟩).1 (by decide)⟩

end ObserverPattern
